import Mathlib

/-!
# Verification of the job-queue / process-supervision engine of Simple-GUI.py

A shallow embedding of the queue, worker-loop and progress-parsing logic of
`Simple-GUI.py` (Simple-SVT-HEVC-GUI), together with proofs and refutations of
the specification's claims about it.

Conventions:
* Python floats are modelled as exact rationals (`ℚ`).
* A Python exception escaping an expression is modelled as `none` / absence.
* Strings are manipulated through their character lists so that every
  definition reduces by `rfl` / `decide` on concrete inputs.
-/

namespace SimpleGui

/-! ## Python string helpers -/

/-- Python `str.strip()` (both-ends whitespace removal, as used on output
lines at line 135 of `Simple-GUI.py`). -/
def py_strip (s : String) : String :=
  ⟨((s.data.dropWhile Char.isWhitespace).reverse.dropWhile Char.isWhitespace).reverse⟩

/-- All-digit character list to its numeric value; `none` when empty or when a
non-digit occurs.  Helper for `py_int`. -/
def py_digits_to_nat (cs : List Char) : Option Nat :=
  if cs.isEmpty then none
  else if cs.all (fun c => c.isDigit) then
    some (cs.foldl (fun n c => n * 10 + (c.toNat - 48)) 0)
  else none

/-- Python `int(s)` on a string: strip whitespace, optional sign, digits;
a `ValueError` (non-numeric input) is modelled as `none`. -/
def py_int (s : String) : Option Int :=
  match (py_strip s).data with
  | '-' :: rest => (py_digits_to_nat rest).map (fun n => -(n : Int))
  | '+' :: rest => (py_digits_to_nat rest).map (fun n => (n : Int))
  | cs => (py_digits_to_nat cs).map (fun n => (n : Int))

/-- Python `str.replace(pat, repl)`: replace every non-overlapping occurrence,
scanning left to right.  Fuel-based so that it reduces definitionally. -/
def py_replace_aux (pat repl : List Char) : Nat → List Char → List Char
  | 0, cs => cs
  | _ + 1, [] => []
  | fuel + 1, c :: cs =>
    if pat.isPrefixOf (c :: cs) then
      repl ++ py_replace_aux pat repl fuel (List.drop pat.length (c :: cs))
    else
      c :: py_replace_aux pat repl fuel cs

/-- Python `s.replace(pat, repl)`. -/
def py_replace (s pat repl : String) : String :=
  ⟨py_replace_aux pat.data repl.data (s.data.length + 1) s.data⟩

/-- `re.split` of an alternation of literal tokens (the pattern
`"frame=|fps=|q=|size=|time="` at line 156): scan left to right, at each
position try the alternatives in pattern order, cut on the first match. -/
def re_split_aux (seps : List (List Char)) : Nat → List Char → List Char → List (List Char)
  | 0, cs, acc => [acc.reverse ++ cs]
  | _ + 1, [], acc => [acc.reverse]
  | fuel + 1, c :: cs, acc =>
    match seps.find? (fun sep => sep.isPrefixOf (c :: cs)) with
    | some sep => acc.reverse :: re_split_aux seps fuel (List.drop sep.length (c :: cs)) []
    | none => re_split_aux seps fuel cs (c :: acc)

/-- `re.split(pattern, s)` for a pattern that is an alternation of literal
separator tokens. -/
def re_split (seps : List String) (s : String) : List String :=
  (re_split_aux (seps.map String.data) (s.data.length + 1) s.data []).map (fun cs => ⟨cs⟩)

/-! ## The progress-line parser (lines 150-178 of `Simple-GUI.py`) -/

/-- The five field-label tokens the progress line is split on (line 156). -/
def progress_tokens : List String := ["frame=", "fps=", "q=", "size=", "time="]

/-- The numeric content of one parsed progress line: the local variables
`done_frames`, `percent_done`, `est_size` and `time_to_complete` of
`encode_thread` at line 178 (floats as exact rationals; the empty-string
`time_to_complete` as `none`). -/
structure ProgressSample where
  done_frames : Int
  percent_done : ℚ
  est_size : ℚ
  time_to_complete : Option ℚ
deriving DecidableEq, Repr

/-- Line 170's divisor: `(1 if done_frames == 0 else done_frames)`. -/
def rate_divisor (done_frames : Int) : Int :=
  if done_frames = 0 then 1 else done_frames

/-- `int(metadata["frame_count"])` where the metadata value is a string or
`None` (pymediainfo).  `int(None)` raises `TypeError`, modelled as `none`. -/
def py_int_of_meta : Option String → Option Int
  | none => none
  | some s => py_int s

/-- Line 116: `total_frames = test_encode if test_encode else
int(metadata["frame_count"])`.  `test_encode` is either `False` (here `none`)
or an `int` (line 705); an escaping exception is `none`. -/
def total_frames_of (test_encode : Option Int) (frame_count : Option String) : Option Int :=
  match test_encode with
  | some n => if n = 0 then py_int_of_meta frame_count else some n
  | none => py_int_of_meta frame_count

/-- Lines 156-178: the body of the progress loop for one line that passed the
`line[:3] == "fra"` check.  `total_frames` is the int computed at line 116
(`0` is falsy for the `if total_frames:` test); `elapsed` is the wall-clock
`time.time() - start_time`.  An uncaught `IndexError` (short split) or
`ValueError` (failed `int()`) is modelled as `none`.  The
`type(percent_done) is not str` guard at line 173 is always true in the
current code (`percent_done` is initialized as `float(0)`), so only the
`percent_done > 0` test remains. -/
def process_progress_line (total_frames : Int) (elapsed : ℚ) (line : String) :
    Option ProgressSample :=
  let split := re_split progress_tokens line
  (split.get? 1).bind fun s1 =>
  (py_int s1).bind fun done_frames =>
  let percent_done : ℚ :=
    if total_frames = 0 then 0
    else 100 - (((total_frames : ℚ) - (done_frames : ℚ)) / (total_frames : ℚ) * 100)
  let time_to_complete : Option ℚ :=
    if total_frames = 0 then none
    else some (((total_frames : ℚ) - (done_frames : ℚ)) * elapsed /
      ((rate_divisor done_frames : Int) : ℚ))
  if percent_done > 0 then
    (split.get? 4).bind fun s4 =>
    (py_int (py_replace s4 "kB" "")).bind fun cur_size =>
    some ⟨done_frames, percent_done, ((cur_size : ℚ) * 100) / percent_done / 1024, time_to_complete⟩
  else
    some ⟨done_frames, percent_done, 0, time_to_complete⟩

/-- The spec's example progress line. -/
def c4_line : String := "frame=  120 fps= 45 q=28.0 size=   10240kB time=00:00:05.00"

/-- The same line with a size field that is not a number. -/
def bad_size_line : String := "frame=  120 fps= 45 q=28.0 size=   N/AkB time=00:00:05.00"

/-- A progress line reporting zero frames done. -/
def zero_frames_line : String := "frame=  0 fps= 0 q=28.0 size=   0kB time=00:00:00.00"

/-- A concrete output stream: two informational lines, then a progress line. -/
def preamble_example : List String := ["info1", "info2", "frame=  1 fps= 1"]

/-! ## The preamble phase (lines 128-139 of `Simple-GUI.py`) -/

/-- The preamble loop (lines 129-135): consume output lines until the first
one whose first three characters are `"fra"` (that line is itself consumed by
the loop and not re-examined), accumulating `msg += line.strip() + "\n"` for
every earlier line.  Returns the accumulated `msg` and the lines left
unconsumed. -/
def preamble_scan (msg : String) : List String → String × List String
  | [] => (msg, [])
  | line :: rest =>
    if line.data.take 3 = ['f', 'r', 'a'] then (msg, rest)
    else preamble_scan (msg ++ py_strip line ++ "\n") rest

/-- Outcome of the preamble phase. -/
structure PreambleResult where
  accumulated : String
  emitted : String
  remaining : List String
deriving DecidableEq, Repr

/-- Lines 128-139: run the preamble loop, then put a message on `gui_queue`.
Line 138, `gui_queue.put(msg)`, is commented out in the source; line 139 puts
the constant `"START ENCODE VIDEO"` instead, so the accumulated text is never
emitted. -/
def preamble_phase (lines : List String) : PreambleResult :=
  let r := preamble_scan "" lines
  ⟨r.1, "START ENCODE VIDEO", r.2⟩

/-! ## Jobs and the Remove-task operation (lines 660-669 of `Simple-GUI.py`) -/

/-- One entry of `encode_list`: a job dict.  Only the fields the queue logic
reads are modelled (`uuid`, `title`, `status`); `command`, `output_file`,
`metadata` and `test_encode` parameterize the spawned process, not the queue.
`status` is one of the literal strings `"⏱ waiting"`, `"▶ started"`,
`"✓ finished"` used by the source. -/
structure Job where
  uuid : String
  title : String
  status : String
deriving DecidableEq, Repr

/-- The inner loop of the `Remove task` handler (lines 664-666):
`for i, job in enumerate(encode_list): if job["uuid"] == job_id and
job["status"] != "▶ started": encode_list.pop(i)`.  Python's list iterator
keeps a live position, so after a `pop(i)` the element that slides into slot
`i` is skipped.  `fuel` only bounds the iteration (the index grows each turn,
so `length + 1` turns always suffice). -/
def remove_scan (job_id : String) : Nat → Nat → List Job → List Job
  | 0, _, l => l
  | fuel + 1, i, l =>
    if h : i < l.length then
      if l[i].uuid = job_id ∧ l[i].status ≠ "▶ started" then
        remove_scan job_id fuel (i + 1) (l.eraseIdx i)
      else
        remove_scan job_id fuel (i + 1) l
    else l

/-- The `Remove task` operation for one selected job id. -/
def remove_task (job_id : String) (l : List Job) : List Job :=
  remove_scan job_id (l.length + 1) 0 l

/-! ## The worker loop and GUI event handling as a transition system

Two logical tasks mutate the shared state: the worker thread
(`encode_thread`, lines 100-210) and the GUI event loop (`the_gui`,
lines 514-764).  Each constructor of `Step` is one atomic action of one of
them; `Steps` is an arbitrary interleaving.  The worker's position in its
loop is tracked by `Phase`:

* `loopTop`    - about to test `encode_queue_active.is_set()` (line 101);
* `waitGate`   - blocked in `encode_queue_active.wait()` (line 102);
* `atGet`      - about to block in `encode_queue.get()` (line 104);
* `running u`  - executing the job with uuid `u` (lines 110-207, after the
                 `"▶ started"` event was put on `encode_event` at line 121);
* `halted`     - left the loop via the sentinel (line 106).
-/

/-- An item of `encode_queue`: a job dict (identified by its uuid), the
`_skip` marker or the `_sentinel` marker. -/
inductive QItem where
  | job (u : String)
  | skip
  | sentinel
deriving DecidableEq, Repr

/-- An entry of the `encode_event` queue (lines 121 and 208):
`{"uuid": ..., "event": ...}`. -/
structure Event where
  uuid : String
  event : String
deriving DecidableEq, Repr

/-- The worker thread's position in its loop. -/
inductive Phase where
  | loopTop
  | waitGate
  | atGet
  | running (u : String)
  | halted
deriving DecidableEq, Repr

/-- The uuid of the job the worker is currently executing, if any. -/
def running_uuid : Phase → Option String
  | .running u => some u
  | _ => none

/-- The shared state: `encode_list` (the GUI's job list), `encode_queue`
(the `queue.Queue` the worker blocks on), `encode_event` (the started/finished
event queue), the `encode_queue_active` and `stoprequest` threading events,
and the worker's phase. -/
structure GuiState where
  encode_list : List Job
  encode_queue : List QItem
  encode_event : List Event
  encode_queue_active : Bool
  stoprequest : Bool
  phase : Phase
deriving DecidableEq, Repr

/-- `build_encode_queue` (lines 506-510): clear `encode_queue`, then put every
job of `encode_list` whose status is `"⏱ waiting"`, in list order. -/
def build_encode_queue (l : List Job) : List QItem :=
  (l.filter (fun j => j.status = "⏱ waiting")).map (fun j => QItem.job j.uuid)

/-- Lines 748-752: processing one entry of `encode_event` sets the status of
every job in `encode_list` with that uuid to the event string. -/
def set_status (l : List Job) (e : Event) : List Job :=
  l.map (fun j => if j.uuid = e.uuid then { j with status := e.event } else j)

/-- The state right after `encode_queue_active.set()` at line 432: empty
queues, active flag set, no stop request, worker at the top of its loop. -/
def gui_init : GuiState :=
  ⟨[], [], [], true, false, .loopTop⟩

/-- Names for the atomic actions of the two tasks. -/
inductive Label where
  | startEncode (u title : String)
  | pauseQueue
  | resumeQueue
  | stopEncode
  | shutdown
  | checkActive
  | wakeActive
  | getSkip
  | getSentinel
  | startJob (u : String)
  | finishJob (u : String)
  | killJob (u : String)
  | processEvent
deriving DecidableEq, Repr

/-- One atomic action.  GUI-side actions:

* `startEncode` - the `Start encode` handler (lines 693-707): append a fresh
  `"⏱ waiting"` job to `encode_list` and rebuild `encode_queue`;
* `pauseQueue` / `resumeQueue` - the `Pause queue` handler (lines 716-718):
  toggle `encode_queue_active` and put `_skip` on `encode_queue`;
* `stopEncode` - the `Stop encode` handler (lines 711-714): set `stoprequest`
  and clear `encode_queue_active`;
* `shutdown` - lines 769-774: set `stoprequest`, clear `encode_queue`, put
  the sentinel, set `encode_queue_active`;
* `processEvent` - lines 744-753: pop one entry of `encode_event` and update
  the matching job's status.

Worker-side actions:

* `checkActive` - line 101: read the active flag; if clear, move to the wait;
* `wakeActive` - line 102: `wait()` returns once the flag is set;
* `getSkip` / `getSentinel` / `startJob` - lines 104-124: pop the head of
  `encode_queue`; a job makes the worker put its `"▶ started"` event and run;
* `finishJob` - lines 150-210 when the process stream ends: clear
  `stoprequest`, put the `"✓ finished"` event, loop;
* `killJob` - lines 145-148 then 203-210 when `stoprequest` is set: kill the
  process, then the very same finalization (the event put at line 208 is
  still `"✓ finished"`). -/
inductive Step : Label → GuiState → GuiState → Prop where
  | startEncode (s : GuiState) (u t : String)
      (h : u ∉ s.encode_list.map Job.uuid) :
      Step (.startEncode u t) s
        { s with encode_list := s.encode_list ++ [⟨u, t, "⏱ waiting"⟩],
                 encode_queue := build_encode_queue (s.encode_list ++ [⟨u, t, "⏱ waiting"⟩]) }
  | pauseQueue (s : GuiState) (h : s.encode_queue_active = true) :
      Step .pauseQueue s
        { s with encode_queue_active := false,
                 encode_queue := s.encode_queue ++ [.skip] }
  | resumeQueue (s : GuiState) (h : s.encode_queue_active = false) :
      Step .resumeQueue s
        { s with encode_queue_active := true,
                 encode_queue := s.encode_queue ++ [.skip] }
  | stopEncode (s : GuiState) :
      Step .stopEncode s { s with stoprequest := true, encode_queue_active := false }
  | shutdown (s : GuiState) :
      Step .shutdown s
        { s with stoprequest := true, encode_queue := [.sentinel],
                 encode_queue_active := true }
  | checkActive (s : GuiState) (h : s.phase = .loopTop) :
      Step .checkActive s
        { s with phase := if s.encode_queue_active then .atGet else .waitGate }
  | wakeActive (s : GuiState) (h : s.phase = .waitGate)
      (ha : s.encode_queue_active = true) :
      Step .wakeActive s { s with phase := .atGet }
  | getSkip (s : GuiState) (rest : List QItem) (h : s.phase = .atGet)
      (hq : s.encode_queue = .skip :: rest) :
      Step .getSkip s { s with encode_queue := rest, phase := .loopTop }
  | getSentinel (s : GuiState) (rest : List QItem) (h : s.phase = .atGet)
      (hq : s.encode_queue = .sentinel :: rest) :
      Step .getSentinel s { s with encode_queue := rest, phase := .halted }
  | startJob (s : GuiState) (u : String) (rest : List QItem) (h : s.phase = .atGet)
      (hq : s.encode_queue = .job u :: rest) :
      Step (.startJob u) s
        { s with encode_queue := rest, phase := .running u,
                 encode_event := s.encode_event ++ [⟨u, "▶ started"⟩] }
  | finishJob (s : GuiState) (u : String) (h : s.phase = .running u) :
      Step (.finishJob u) s
        { s with phase := .loopTop, stoprequest := false,
                 encode_event := s.encode_event ++ [⟨u, "✓ finished"⟩] }
  | killJob (s : GuiState) (u : String) (h : s.phase = .running u)
      (hs : s.stoprequest = true) :
      Step (.killJob u) s
        { s with phase := .loopTop, stoprequest := false,
                 encode_event := s.encode_event ++ [⟨u, "✓ finished"⟩] }
  | processEvent (s : GuiState) (e : Event) (rest : List Event)
      (h : s.encode_event = e :: rest) :
      Step .processEvent s
        { s with encode_list := set_status s.encode_list e, encode_event := rest }

/-- An interleaving: a finite sequence of atomic actions. -/
inductive Steps : List Label → GuiState → GuiState → Prop where
  | nil (s : GuiState) : Steps [] s s
  | cons {a : Label} {tr : List Label} {s s1 s2 : GuiState} :
      Step a s s1 → Steps tr s1 s2 → Steps (a :: tr) s s2

/-- The uuids of the jobs whose displayed status is `"▶ started"`, in list
order. -/
def started_ids (l : List Job) : List String :=
  (l.filter (fun j => j.status = "▶ started")).map Job.uuid

/-- Well-formedness of the pending `encode_event` queue relative to the
currently displayed started jobs (`cur`) and the worker (`w`): the worker
emits a strictly alternating started/finished stream, the GUI consumes it in
order.  `cur` is the value of `started_ids` now; replaying the pending events
must keep at most one started job and end with exactly the worker's current
job started. -/
inductive WfEvents : List String → List Event → Option String → Prop where
  | nil_idle : WfEvents [] [] none
  | nil_run (u : String) : WfEvents [u] [] (some u)
  | cons_st (u : String) (rest : List Event) (w : Option String) :
      WfEvents [u] rest w → WfEvents [] (⟨u, "▶ started"⟩ :: rest) w
  | cons_fin (u : String) (rest : List Event) (w : Option String) :
      WfEvents [] rest w → WfEvents [u] (⟨u, "✓ finished"⟩ :: rest) w

/-- The inductive invariant for the transition system. -/
structure Inv (s : GuiState) : Prop where
  nodup : (s.encode_list.map Job.uuid).Nodup
  ev_mem : ∀ e ∈ s.encode_event, e.uuid ∈ s.encode_list.map Job.uuid
  q_mem : ∀ u, QItem.job u ∈ s.encode_queue → u ∈ s.encode_list.map Job.uuid
  run_mem : ∀ u, running_uuid s.phase = some u → u ∈ s.encode_list.map Job.uuid
  wf : WfEvents (started_ids s.encode_list) s.encode_event (running_uuid s.phase)

/-- Labels the worker thread itself performs (the GUI thread's actions,
including event processing, are excluded; after the shutdown sequence the GUI
thread only blocks in `encoder.join()`, lines 769-779). -/
def worker_label : Label → Prop
  | .startEncode _ _ => False
  | .pauseQueue => False
  | .resumeQueue => False
  | .stopEncode => False
  | .shutdown => False
  | .processEvent => False
  | _ => True

/-! ## Helper lemmas about `remove_scan` -/

theorem mem_eraseIdx_of_ne {α : Type} {l : List α} {i : Nat} {x : α}
    (hx : x ∈ l) (h : i < l.length) (hne : x ≠ l[i]) : x ∈ l.eraseIdx i := by
  rw [List.eraseIdx_eq_take_drop_succ]
  have hx2 : x ∈ l.take i ++ l.drop i := by rw [List.take_append_drop]; exact hx
  rcases List.mem_append.mp hx2 with h1 | h2
  · exact List.mem_append.mpr (Or.inl h1)
  · rw [List.drop_eq_getElem_cons h] at h2
    rcases List.mem_cons.mp h2 with h3 | h4
    · exact absurd h3 hne
    · exact List.mem_append.mpr (Or.inr h4)

theorem remove_scan_subset (job_id : String) :
    ∀ (fuel i : Nat) (l : List Job), remove_scan job_id fuel i l ⊆ l := by
  intro fuel
  induction fuel with
  | zero => intro i l; simp only [remove_scan]; exact fun x hx => hx
  | succ n ih =>
    intro i l
    simp only [remove_scan]
    split
    · split
      · exact (ih (i + 1) _).trans (List.eraseIdx_subset l i)
      · exact ih (i + 1) l
    · exact fun x hx => hx

theorem remove_scan_keeps_started (job_id : String) :
    ∀ (fuel i : Nat) (l : List Job) (j : Job), j ∈ l → j.status = "▶ started" →
      j ∈ remove_scan job_id fuel i l := by
  intro fuel
  induction fuel with
  | zero => intro i l j hj _; simpa only [remove_scan] using hj
  | succ n ih =>
    intro i l j hj hst
    simp only [remove_scan]
    split
    case isTrue h =>
      split
      case isTrue hm =>
        refine ih (i + 1) _ j ?_ hst
        refine mem_eraseIdx_of_ne hj h ?_
        intro heq
        exact hm.2 (by rw [← heq, hst])
      case isFalse hm => exact ih (i + 1) l j hj hst
    case isFalse h => exact hj

theorem remove_scan_keeps_other (job_id : String) :
    ∀ (fuel i : Nat) (l : List Job) (j : Job), j ∈ l → j.uuid ≠ job_id →
      j ∈ remove_scan job_id fuel i l := by
  intro fuel
  induction fuel with
  | zero => intro i l j hj _; simpa only [remove_scan] using hj
  | succ n ih =>
    intro i l j hj hid
    simp only [remove_scan]
    split
    case isTrue h =>
      split
      case isTrue hm =>
        refine ih (i + 1) _ j ?_ hid
        refine mem_eraseIdx_of_ne hj h ?_
        intro heq
        exact hid (by rw [heq, hm.1])
      case isFalse hm => exact ih (i + 1) l j hj hid
    case isFalse h => exact hj

theorem remove_scan_eq_of_no_match (job_id : String) :
    ∀ (fuel i : Nat) (l : List Job),
      (∀ j ∈ l.drop i, ¬(j.uuid = job_id ∧ j.status ≠ "▶ started")) →
      remove_scan job_id fuel i l = l := by
  intro fuel
  induction fuel with
  | zero => intro i l _; simp only [remove_scan]
  | succ n ih =>
    intro i l hno
    simp only [remove_scan]
    split
    case isTrue h =>
      have hi : l[i] ∈ l.drop i := by
        rw [List.drop_eq_getElem_cons h]; exact List.mem_cons_self _ _
      rw [if_neg (hno _ hi)]
      refine ih (i + 1) l ?_
      intro j hj
      refine hno j ?_
      rw [List.drop_eq_getElem_cons h]
      exact List.mem_cons_of_mem _ hj
    case isFalse h => rfl

theorem remove_scan_removes (job_id : String) :
    ∀ (fuel i : Nat) (l : List Job), l.length ≤ fuel + i →
      (l.map Job.uuid).Nodup →
      ∀ j ∈ l.drop i, j.uuid = job_id → j.status ≠ "▶ started" →
      j ∉ remove_scan job_id fuel i l := by
  intro fuel
  induction fuel with
  | zero =>
    intro i l hlen _ j hj _ _
    rw [List.drop_eq_nil_of_le (by omega)] at hj
    exact absurd hj (List.not_mem_nil j)
  | succ n ih =>
    intro i l hlen hnd j hj hjid hjst
    simp only [remove_scan]
    split
    case isTrue h =>
      by_cases hm : l[i].uuid = job_id ∧ l[i].status ≠ "▶ started"
      · rw [if_pos hm]
        intro hmem
        have hsub : j ∈ l.eraseIdx i := remove_scan_subset job_id n (i + 1) _ hmem
        have hsplit : l.map Job.uuid =
            (l.map Job.uuid).take i ++ l[i].uuid :: (l.map Job.uuid).drop (i + 1) := by
          conv_lhs => rw [← List.take_append_drop i (l.map Job.uuid)]
          rw [List.drop_eq_getElem_cons (by simpa using h), List.getElem_map]
        rw [hsplit, List.nodup_append] at hnd
        obtain ⟨_, h2, hdisj⟩ := hnd
        rw [List.nodup_cons] at h2
        rw [List.eraseIdx_eq_take_drop_succ] at hsub
        rcases List.mem_append.mp hsub with h1 | h4
        · have hmem1 : j.uuid ∈ (l.map Job.uuid).take i := by
            rw [← List.map_take]
            exact List.mem_map.mpr ⟨j, h1, rfl⟩
          exact hdisj hmem1 (by rw [hjid, ← hm.1]; exact List.mem_cons_self _ _)
        · refine h2.1 ?_
          rw [hm.1, ← hjid, ← List.map_drop]
          exact List.mem_map.mpr ⟨j, h4, rfl⟩
      · rw [if_neg hm]
        rw [List.drop_eq_getElem_cons h] at hj
        rcases List.mem_cons.mp hj with heq | hj2
        · exact absurd ⟨by rw [heq] at hjid; exact hjid,
            by rw [heq] at hjst; exact hjst⟩ hm
        · exact ih (i + 1) l (by omega) hnd j hj2 hjid hjst
    case isFalse h =>
      rw [List.drop_eq_nil_of_le (by omega)] at hj
      exact absurd hj (List.not_mem_nil j)

/-! ## Helper lemma for the preamble phase -/

theorem preamble_scan_append (msg : String) (pre : List String) (fra_line : String)
    (rest : List String)
    (hpre : ∀ l ∈ pre, l.data.take 3 ≠ ['f', 'r', 'a'])
    (hfra : fra_line.data.take 3 = ['f', 'r', 'a']) :
    preamble_scan msg (pre ++ fra_line :: rest) =
      (pre.foldl (fun m l => m ++ py_strip l ++ "\n") msg, rest) := by
  induction pre generalizing msg with
  | nil => simp [preamble_scan, hfra]
  | cons a pre ih =>
    simp only [List.cons_append, preamble_scan, List.foldl_cons]
    rw [if_neg (hpre a (List.mem_cons_self a pre))]
    exact ih (msg ++ py_strip a ++ "\n") (fun l hl => hpre l (List.mem_cons_of_mem a hl))

/-! ## Helper lemmas about events, statuses and the invariant -/

theorem wf_events_append_st_aux {cur : List String} {q : List Event} {w : Option String}
    (u : String) (h : WfEvents cur q w) :
    w = none → WfEvents cur (q ++ [⟨u, "▶ started"⟩]) (some u) := by
  induction h with
  | nil_idle => exact fun _ => .cons_st u [] (some u) (.nil_run u)
  | nil_run v => intro hw; cases hw
  | cons_st v rest w _ ih => exact fun hw => .cons_st v _ _ (ih hw)
  | cons_fin v rest w _ ih => exact fun hw => .cons_fin v _ _ (ih hw)

theorem wf_events_append_st {cur : List String} {q : List Event} (u : String)
    (h : WfEvents cur q none) : WfEvents cur (q ++ [⟨u, "▶ started"⟩]) (some u) :=
  wf_events_append_st_aux u h rfl

theorem wf_events_append_fin_aux {cur : List String} {q : List Event} {w : Option String}
    (u : String) (h : WfEvents cur q w) :
    w = some u → WfEvents cur (q ++ [⟨u, "✓ finished"⟩]) none := by
  induction h with
  | nil_idle => intro hw; cases hw
  | nil_run v => intro hw; injection hw with hw; exact hw ▸ .cons_fin v [] none .nil_idle
  | cons_st v rest w _ ih => exact fun hw => .cons_st v _ _ (ih hw)
  | cons_fin v rest w _ ih => exact fun hw => .cons_fin v _ _ (ih hw)

theorem wf_events_append_fin {cur : List String} {q : List Event} (u : String)
    (h : WfEvents cur q (some u)) : WfEvents cur (q ++ [⟨u, "✓ finished"⟩]) none :=
  wf_events_append_fin_aux u h rfl

theorem wf_events_cur_short {cur : List String} {q : List Event} {w : Option String}
    (h : WfEvents cur q w) : cur.length ≤ 1 := by
  cases h <;> simp

theorem set_status_cons (j : Job) (rest : List Job) (e : Event) :
    set_status (j :: rest) e =
      (if j.uuid = e.uuid then { j with status := e.event } else j) :: set_status rest e := rfl

theorem set_status_map_uuid (l : List Job) (e : Event) :
    (set_status l e).map Job.uuid = l.map Job.uuid := by
  induction l with
  | nil => rfl
  | cons j rest ih =>
    rw [set_status_cons, List.map_cons, List.map_cons, ih]
    congr 1
    split <;> rfl

theorem set_status_of_not_mem (l : List Job) (e : Event)
    (h : e.uuid ∉ l.map Job.uuid) : set_status l e = l := by
  induction l with
  | nil => rfl
  | cons j rest ih =>
    simp only [List.map_cons, List.mem_cons, not_or] at h
    rw [set_status_cons, if_neg (fun hj => h.1 hj.symm), ih h.2]

theorem started_ids_cons (j : Job) (rest : List Job) :
    started_ids (j :: rest) =
      if j.status = "▶ started" then j.uuid :: started_ids rest else started_ids rest := by
  simp only [started_ids, List.filter_cons]
  split
  case isTrue h => rw [if_pos (by simpa using h), List.map_cons]
  case isFalse h => rw [if_neg (by simpa using h)]

theorem started_ids_append_waiting (l : List Job) (u t : String) :
    started_ids (l ++ [⟨u, t, "⏱ waiting"⟩]) = started_ids l := by
  induction l with
  | nil => rfl
  | cons j rest ih =>
    rw [List.cons_append, started_ids_cons, started_ids_cons, ih]

theorem started_ids_mem {l : List Job} {u : String} (h : started_ids l = [u]) :
    u ∈ l.map Job.uuid := by
  induction l with
  | nil => simp [started_ids] at h
  | cons j rest ih =>
    rw [started_ids_cons] at h
    by_cases hs : j.status = "▶ started"
    · rw [if_pos hs] at h
      have : j.uuid = u := (List.cons_eq_cons.mp h).1
      rw [List.map_cons, this]
      exact List.mem_cons_self u _
    · rw [if_neg hs] at h
      exact List.mem_cons_of_mem _ (ih h)

theorem started_ids_set_started (l : List Job) (u : String)
    (hnd : (l.map Job.uuid).Nodup) (hu : u ∈ l.map Job.uuid)
    (h0 : started_ids l = []) :
    started_ids (set_status l ⟨u, "▶ started"⟩) = [u] := by
  induction l with
  | nil => simp at hu
  | cons j rest ih =>
    rw [List.map_cons, List.nodup_cons] at hnd
    rw [started_ids_cons] at h0
    have hjs : ¬ j.status = "▶ started" := by
      intro hs
      rw [if_pos hs] at h0
      exact List.cons_ne_nil _ _ h0
    rw [if_neg hjs] at h0
    by_cases hju : j.uuid = u
    · have hrest : set_status rest ⟨u, "▶ started"⟩ = rest := by
        refine set_status_of_not_mem rest _ ?_
        simpa [← hju] using hnd.1
      rw [set_status_cons, if_pos hju, started_ids_cons, hrest]
      simp [h0, hju]
    · rw [set_status_cons, if_neg hju, started_ids_cons, if_neg hjs]
      rw [List.map_cons] at hu
      rcases List.mem_cons.mp hu with heq | hmem
      · exact absurd heq.symm hju
      · exact ih hnd.2 hmem h0

theorem started_ids_set_finished (l : List Job) (u : String)
    (hnd : (l.map Job.uuid).Nodup) (h1 : started_ids l = [u]) :
    started_ids (set_status l ⟨u, "✓ finished"⟩) = [] := by
  induction l with
  | nil => simp [started_ids] at h1
  | cons j rest ih =>
    rw [List.map_cons, List.nodup_cons] at hnd
    rw [started_ids_cons] at h1
    by_cases hjs : j.status = "▶ started"
    · rw [if_pos hjs] at h1
      obtain ⟨hju, hrest0⟩ := List.cons_eq_cons.mp h1
      have hrest : set_status rest ⟨u, "✓ finished"⟩ = rest := by
        refine set_status_of_not_mem rest _ ?_
        simpa [← hju] using hnd.1
      rw [set_status_cons, if_pos hju, started_ids_cons, hrest]
      simp [hrest0]
    · rw [if_neg hjs] at h1
      have hju : ¬ j.uuid = u := by
        intro hj
        exact hnd.1 (hj ▸ started_ids_mem h1)
      rw [set_status_cons, if_neg hju, started_ids_cons, if_neg hjs]
      exact ih hnd.2 h1

theorem build_encode_queue_mem {l : List Job} {u : String}
    (h : QItem.job u ∈ build_encode_queue l) : u ∈ l.map Job.uuid := by
  simp only [build_encode_queue, List.mem_map] at h
  obtain ⟨j, hj, hju⟩ := h
  have : j.uuid = u := by injection hju
  exact this ▸ List.mem_map.mpr ⟨j, List.mem_of_mem_filter hj, rfl⟩

theorem inv_gui_init : Inv gui_init := by
  refine ⟨?_, ?_, ?_, ?_, ?_⟩
  · simp [gui_init]
  · intro e he; simp [gui_init] at he
  · intro u hu; simp [gui_init] at hu
  · intro u hu; simp [gui_init, running_uuid] at hu
  · exact WfEvents.nil_idle

theorem inv_step {a : Label} {s s2 : GuiState} (hstep : Step a s s2) (hinv : Inv s) :
    Inv s2 := by
  obtain ⟨hnd, hev, hq, hrun, hwf⟩ := hinv
  cases hstep with
  | startEncode _ u t h =>
    refine ⟨?_, ?_, ?_, ?_, ?_⟩
    · simp only [List.map_append, List.map_cons, List.map_nil]
      rw [List.nodup_append]
      refine ⟨hnd, List.nodup_singleton u, ?_⟩
      intro x hx hx2
      rw [List.mem_singleton] at hx2
      subst hx2
      exact h hx
    · intro e he
      simp only [List.map_append]
      exact List.mem_append_left _ (hev e he)
    · intro v hv
      exact build_encode_queue_mem hv
    · intro v hv
      simp only [List.map_append]
      exact List.mem_append_left _ (hrun v hv)
    · show WfEvents (started_ids (s.encode_list ++ [⟨u, t, "⏱ waiting"⟩]))
        s.encode_event (running_uuid s.phase)
      rw [started_ids_append_waiting]
      exact hwf
  | pauseQueue _ h =>
    refine ⟨hnd, hev, ?_, hrun, hwf⟩
    intro v hv
    rcases List.mem_append.mp hv with h1 | h2
    · exact hq v h1
    · simp at h2
  | resumeQueue _ h =>
    refine ⟨hnd, hev, ?_, hrun, hwf⟩
    intro v hv
    rcases List.mem_append.mp hv with h1 | h2
    · exact hq v h1
    · simp at h2
  | stopEncode _ => exact ⟨hnd, hev, hq, hrun, hwf⟩
  | shutdown _ =>
    refine ⟨hnd, hev, ?_, hrun, hwf⟩
    intro v hv
    simp at hv
  | checkActive _ h =>
    have hnone : running_uuid (if s.encode_queue_active then Phase.atGet else Phase.waitGate) =
        none := by cases s.encode_queue_active <;> rfl
    have h0 : running_uuid s.phase = none := by rw [h]; rfl
    refine ⟨hnd, hev, hq, ?_, ?_⟩
    · intro v hv
      have hv2 : running_uuid (if s.encode_queue_active then Phase.atGet else Phase.waitGate) =
          some v := hv
      rw [hnone] at hv2
      cases hv2
    · show WfEvents (started_ids s.encode_list) s.encode_event
        (running_uuid (if s.encode_queue_active then Phase.atGet else Phase.waitGate))
      rw [hnone]
      rw [h0] at hwf
      exact hwf
  | wakeActive _ h ha =>
    have h0 : running_uuid s.phase = none := by rw [h]; rfl
    refine ⟨hnd, hev, hq, ?_, ?_⟩
    · intro v hv
      cases hv
    · show WfEvents (started_ids s.encode_list) s.encode_event (running_uuid Phase.atGet)
      rw [h0] at hwf
      exact hwf
  | getSkip _ rest h hqe =>
    have h0 : running_uuid s.phase = none := by rw [h]; rfl
    refine ⟨hnd, hev, ?_, ?_, ?_⟩
    · intro v hv
      exact hq v (hqe ▸ List.mem_cons_of_mem _ hv)
    · intro v hv
      cases hv
    · show WfEvents (started_ids s.encode_list) s.encode_event (running_uuid Phase.loopTop)
      rw [h0] at hwf
      exact hwf
  | getSentinel _ rest h hqe =>
    have h0 : running_uuid s.phase = none := by rw [h]; rfl
    refine ⟨hnd, hev, ?_, ?_, ?_⟩
    · intro v hv
      exact hq v (hqe ▸ List.mem_cons_of_mem _ hv)
    · intro v hv
      cases hv
    · show WfEvents (started_ids s.encode_list) s.encode_event (running_uuid Phase.halted)
      rw [h0] at hwf
      exact hwf
  | startJob _ u rest h hqe =>
    have h0 : running_uuid s.phase = none := by rw [h]; rfl
    have humem : u ∈ s.encode_list.map Job.uuid :=
      hq u (hqe ▸ List.mem_cons_self _ _)
    refine ⟨hnd, ?_, ?_, ?_, ?_⟩
    · intro e he
      rcases List.mem_append.mp he with h1 | h2
      · exact hev e h1
      · rw [List.mem_singleton] at h2
        subst h2
        exact humem
    · intro v hv
      exact hq v (hqe ▸ List.mem_cons_of_mem _ hv)
    · intro v hv
      have : u = v := by
        have hv2 : running_uuid (Phase.running u) = some v := hv
        injection hv2
      subst this
      exact humem
    · show WfEvents (started_ids s.encode_list)
        (s.encode_event ++ [⟨u, "▶ started"⟩]) (running_uuid (Phase.running u))
      rw [h0] at hwf
      exact wf_events_append_st u hwf
  | finishJob _ u h =>
    have h0 : running_uuid s.phase = some u := by rw [h]; rfl
    have humem : u ∈ s.encode_list.map Job.uuid := hrun u h0
    refine ⟨hnd, ?_, hq, ?_, ?_⟩
    · intro e he
      rcases List.mem_append.mp he with h1 | h2
      · exact hev e h1
      · rw [List.mem_singleton] at h2
        subst h2
        exact humem
    · intro v hv
      cases hv
    · show WfEvents (started_ids s.encode_list)
        (s.encode_event ++ [⟨u, "✓ finished"⟩]) (running_uuid Phase.loopTop)
      rw [h0] at hwf
      exact wf_events_append_fin u hwf
  | killJob _ u h hsr =>
    have h0 : running_uuid s.phase = some u := by rw [h]; rfl
    have humem : u ∈ s.encode_list.map Job.uuid := hrun u h0
    refine ⟨hnd, ?_, hq, ?_, ?_⟩
    · intro e he
      rcases List.mem_append.mp he with h1 | h2
      · exact hev e h1
      · rw [List.mem_singleton] at h2
        subst h2
        exact humem
    · intro v hv
      cases hv
    · show WfEvents (started_ids s.encode_list)
        (s.encode_event ++ [⟨u, "✓ finished"⟩]) (running_uuid Phase.loopTop)
      rw [h0] at hwf
      exact wf_events_append_fin u hwf
  | processEvent _ e rest h =>
    rw [h] at hwf
    have hids := set_status_map_uuid s.encode_list e
    generalize hgen : started_ids s.encode_list = cur at hwf
    cases hwf with
    | cons_st u rest2 w hw =>
      refine ⟨?_, ?_, ?_, ?_, ?_⟩
      · rw [hids]; exact hnd
      · intro e2 he2
        rw [hids]
        exact hev e2 (h ▸ List.mem_cons_of_mem _ he2)
      · intro v hv
        rw [hids]
        exact hq v hv
      · intro v hv
        rw [hids]
        exact hrun v hv
      · show WfEvents (started_ids (set_status s.encode_list ⟨u, "▶ started"⟩))
          rest (running_uuid s.phase)
        have hu : u ∈ s.encode_list.map Job.uuid :=
          hev _ (h ▸ List.mem_cons_self _ _)
        rw [started_ids_set_started s.encode_list u hnd hu hgen]
        exact hw
    | cons_fin u rest2 w hw =>
      refine ⟨?_, ?_, ?_, ?_, ?_⟩
      · rw [hids]; exact hnd
      · intro e2 he2
        rw [hids]
        exact hev e2 (h ▸ List.mem_cons_of_mem _ he2)
      · intro v hv
        rw [hids]
        exact hq v hv
      · intro v hv
        rw [hids]
        exact hrun v hv
      · show WfEvents (started_ids (set_status s.encode_list ⟨u, "✓ finished"⟩))
          rest (running_uuid s.phase)
        rw [started_ids_set_finished s.encode_list u hnd hgen]
        exact hw

theorem inv_steps {tr : List Label} {s s2 : GuiState} (h : Steps tr s s2) (hinv : Inv s) :
    Inv s2 := by
  induction h with
  | nil => exact hinv
  | cons hstep _ ih => exact ih (inv_step hstep hinv)

/-! ## Claims about the progress parser and job setup (C4, C6, C7, C8) -/

/-- **C4** (confirmed): feeding the progress-line parser the line
`frame=  120 fps= 45 q=28.0 size=   10240kB time=00:00:05.00` with
`total_frames = 1000` (and wall-clock elapsed 5 s) yields
`done_frames = 120`, `percent_done = 12 = 100 - ((1000 - 120)/1000 * 100)`
and `est_size = 250/3 ≈ 83.33 = (10240/1024 * 100)/12` MiB. -/
theorem progress_sample_of_spec_line :
    process_progress_line 1000 5 c4_line = some ⟨120, 12, 250 / 3, some (110 / 3)⟩ ∧
    (12 : ℚ) = 100 - ((1000 - 120) / 1000 * 100) ∧
    (250 / 3 : ℚ) = (10240 / 1024 * 100) / 12 := by
  refine ⟨?_, by norm_num, by norm_num⟩
  have hg1 : (re_split progress_tokens c4_line).get? 1 = some "  120 " := rfl
  have hg4 : (re_split progress_tokens c4_line).get? 4 = some "   10240kB " := rfl
  have h1 : py_int "  120 " = some 120 := rfl
  have h4 : py_int (py_replace "   10240kB " "kB" "") = some 10240 := rfl
  simp only [process_progress_line, hg1, hg4, h1, h4, Option.some_bind, rate_divisor]
  norm_num [ProgressSample.mk.injEq]

/-- **C6** (code_bug): for a job with no test-encode frame limit and no frame
count in the metadata, line 116 computes `int(metadata["frame_count"])` with
`frame_count = None`; `int(None)` raises `TypeError` and kills the worker
thread before any progress line is processed (modelled by `none`), rather
than running the job with the percent/size/ETA fields omitted as the spec
claims.  The two ordinary paths are evaluated for contrast. -/
theorem total_frames_unknown_raises :
    total_frames_of none none = none ∧
    total_frames_of (some 1000) none = some 1000 ∧
    total_frames_of none (some "250") = some 250 :=
  ⟨rfl, rfl, rfl⟩

/-- **C7** counterexample: a progress line whose size field is not a number
(`size=   N/AkB`) does not yield a sample with the size fields omitted — the
uncaught `ValueError` from `int()` at line 174 aborts the whole iteration
(modelled by `none`). -/
theorem bad_size_line_aborts : process_progress_line 1000 5 bad_size_line = none := by
  have hg1 : (re_split progress_tokens bad_size_line).get? 1 = some "  120 " := rfl
  have hg4 : (re_split progress_tokens bad_size_line).get? 4 = some "   N/AkB " := rfl
  have h1 : py_int "  120 " = some 120 := rfl
  have h4 : py_int (py_replace "   N/AkB " "kB" "") = none := rfl
  simp only [process_progress_line, hg1, hg4, h1, h4, Option.some_bind, Option.none_bind]
  norm_num

/-- **C7** (corrected, amended claim): a progress line whose size field cannot
be parsed as a number aborts the whole line with an uncaught `ValueError`
whenever the computed `percent_done` is positive; the size and size-estimate
fields are left at their `0` defaults — without the size field even being
read — only when `percent_done` is not positive (for example when
`total_frames` is falsy). -/
theorem bad_size_line_amended : ∀ e : ℚ,
    process_progress_line 1000 e bad_size_line = none ∧
    process_progress_line 0 e bad_size_line = some ⟨120, 0, 0, none⟩ := by
  intro e
  have hg1 : (re_split progress_tokens bad_size_line).get? 1 = some "  120 " := rfl
  have hg4 : (re_split progress_tokens bad_size_line).get? 4 = some "   N/AkB " := rfl
  have h1 : py_int "  120 " = some 120 := rfl
  have h4 : py_int (py_replace "   N/AkB " "kB" "") = none := rfl
  constructor
  · simp only [process_progress_line, hg1, hg4, h1, h4, Option.some_bind, Option.none_bind]
    norm_num
  · simp only [process_progress_line, hg1, hg4, h1, h4, Option.some_bind, Option.none_bind]
    norm_num

/-- Witness for `bad_size_line_amended` at a concrete elapsed time. -/
theorem bad_size_line_amended_witness :
    process_progress_line 1000 3 bad_size_line = none :=
  (bad_size_line_amended 3).1

/-- **C8** (confirmed): line 170's divisor `(1 if done_frames == 0 else
done_frames)` equals `1` when no frame is done and is never zero, so the
`elapsed / done_frames` extrapolation never divides by zero; on a
zero-frames progress line the published remaining-time estimate is computed
with divisor `1`. -/
theorem rate_divisor_never_zero :
    rate_divisor 0 = 1 ∧
    (∀ d : Int, rate_divisor d ≠ 0) ∧
    (∀ e : ℚ, process_progress_line 1000 e zero_frames_line =
      some ⟨0, 0, 0, some ((1000 - 0) * e / 1)⟩) := by
  refine ⟨rfl, ?_, ?_⟩
  · intro d
    unfold rate_divisor
    split
    · exact one_ne_zero
    · assumption
  · intro e
    have hg1 : (re_split progress_tokens zero_frames_line).get? 1 = some "  0 " := rfl
    have h1 : py_int "  0 " = some 0 := rfl
    simp only [process_progress_line, hg1, h1, Option.some_bind, rate_divisor]
    norm_num [ProgressSample.mk.injEq]

/-- Witness for `rate_divisor_never_zero`: the universally quantified parts
evaluated at concrete inputs. -/
theorem rate_divisor_never_zero_witness :
    rate_divisor 0 ≠ 0 ∧
    process_progress_line 1000 7 zero_frames_line = some ⟨0, 0, 0, some ((1000 - 0) * 7 / 1)⟩ :=
  ⟨rate_divisor_never_zero.2.1 0, rate_divisor_never_zero.2.2 7⟩

/-! ## Claim about the preamble phase (C5) -/

/-- **C5** counterexample: the worker accumulates the preamble text
(`"info1\ninfo2\n"`) but what it puts on `gui_queue` when the preamble ends
is the constant `"START ENCODE VIDEO"` (line 139) — the emission of the
accumulated text (line 138) is commented out — so the accumulated text is
not what is emitted. -/
theorem preamble_marker_not_text :
    (preamble_phase preamble_example).accumulated = "info1\ninfo2\n" ∧
    (preamble_phase preamble_example).emitted = "START ENCODE VIDEO" ∧
    (preamble_phase preamble_example).emitted ≠ (preamble_phase preamble_example).accumulated :=
  ⟨rfl, rfl, by decide⟩

/-- **C5** (corrected, amended claim): the worker consumes output lines up to
and including the first line whose first three characters are `"fra"`,
accumulates the stripped text of the earlier lines joined by newlines, but
then emits the fixed marker string `"START ENCODE VIDEO"` to the observer
rather than the accumulated preamble text. -/
theorem preamble_phase_amended :
    ∀ (pre : List String) (fra_line : String) (rest : List String),
      (∀ l ∈ pre, l.data.take 3 ≠ ['f', 'r', 'a']) →
      fra_line.data.take 3 = ['f', 'r', 'a'] →
      preamble_phase (pre ++ fra_line :: rest) =
        ⟨pre.foldl (fun m l => m ++ py_strip l ++ "\n") "", "START ENCODE VIDEO", rest⟩ := by
  intro pre fra_line rest hpre hfra
  simp only [preamble_phase, preamble_scan_append "" pre fra_line rest hpre hfra]

/-- Witness for `preamble_phase_amended` at a concrete stream. -/
theorem preamble_phase_amended_witness :
    preamble_phase (["info1", "info2"] ++ "frame=  1 fps= 1" :: ["tail"]) =
      ⟨"info1\ninfo2\n", "START ENCODE VIDEO", ["tail"]⟩ :=
  preamble_phase_amended ["info1", "info2"] "frame=  1 fps= 1" ["tail"]
    (by decide) (by decide)

/-! ## Claim about Remove task (C2) -/

/-- **C2** (confirmed): for a queue with distinct job ids, the `Remove task`
operation (a) never affects a job whose status is `"▶ started"` (Running),
(b) never affects a job with a different id, (c) does remove the selected
job whatever its status, as long as that status is not `"▶ started"`, and
(d) leaves the queue completely unchanged when the selected job is
`"▶ started"` (the source refuses silently; the spec names this refusal
`InvalidState`). -/
theorem remove_never_affects_running (job_id : String) (l : List Job)
    (hnd : (l.map Job.uuid).Nodup) :
    (∀ j ∈ l, j.status = "▶ started" → j ∈ remove_task job_id l) ∧
    (∀ j ∈ l, j.uuid ≠ job_id → j ∈ remove_task job_id l) ∧
    (∀ j ∈ l, j.uuid = job_id → j.status ≠ "▶ started" → j ∉ remove_task job_id l) ∧
    ((∀ j ∈ l, j.uuid = job_id → j.status = "▶ started") → remove_task job_id l = l) := by
  refine ⟨?_, ?_, ?_, ?_⟩
  · exact fun j hj hst => remove_scan_keeps_started job_id (l.length + 1) 0 l j hj hst
  · exact fun j hj hid => remove_scan_keeps_other job_id (l.length + 1) 0 l j hj hid
  · intro j hj hid hst
    exact remove_scan_removes job_id (l.length + 1) 0 l (by omega) hnd j
      (by simpa using hj) hid hst
  · intro hall
    refine remove_scan_eq_of_no_match job_id (l.length + 1) 0 l ?_
    intro j hj hcon
    exact hcon.2 (hall j (by simpa using hj) hcon.1)

/-- Witness for `remove_never_affects_running`: removing a `"▶ started"` job
is a no-op, and removing a `"⏱ waiting"` job deletes it. -/
theorem remove_never_affects_running_witness :
    remove_task "a" [⟨"a", "t", "▶ started"⟩, ⟨"b", "t", "⏱ waiting"⟩] =
      [⟨"a", "t", "▶ started"⟩, ⟨"b", "t", "⏱ waiting"⟩] ∧
    (⟨"b", "t", "⏱ waiting"⟩ : Job) ∉
      remove_task "b" [⟨"a", "t", "▶ started"⟩, ⟨"b", "t", "⏱ waiting"⟩] :=
  ⟨(remove_never_affects_running "a" _ (by decide)).2.2.2 (by decide),
   (remove_never_affects_running "b" _ (by decide)).2.2.1 _ (by decide) rfl (by decide)⟩

/-! ## Claim about the single-worker invariant (C3) -/

/-- **C3** (confirmed): in every state reachable from the start state by any
interleaving of the GUI actions (enqueue, pause, resume, stop, shutdown,
event processing) with the worker loop, at most one job of `encode_list` has
the Running status `"▶ started"`. -/
theorem at_most_one_running (tr : List Label) (s : GuiState)
    (h : Steps tr gui_init s) : (started_ids s.encode_list).length ≤ 1 :=
  wf_events_cur_short (inv_steps h inv_gui_init).wf

/-- Witness for `at_most_one_running`: a concrete four-step interleaving that
enqueues a job, dequeues it and processes its started event. -/
theorem at_most_one_running_witness :
    (started_ids [(⟨"a", "t", "▶ started"⟩ : Job)]).length ≤ 1 :=
  at_most_one_running [.startEncode "a" "t", .checkActive, .startJob "a", .processEvent]
    ⟨[⟨"a", "t", "▶ started"⟩], [], [], true, false, .running "a"⟩
    (Steps.cons (Step.startEncode gui_init "a" "t" (by decide))
      (Steps.cons (Step.checkActive _ rfl)
        (Steps.cons (Step.startJob _ "a" [] rfl rfl)
          (Steps.cons (Step.processEvent _ ⟨"a", "▶ started"⟩ [] rfl)
            (Steps.nil _)))))

/-! ## Claims about pause/resume and the in-flight job (C9) -/

theorem no_dequeue_while_paused :
    ∀ (tr : List Label) (s0 s1 : GuiState),
      Steps tr s0 s1 →
      s0.encode_queue_active = false → s0.phase ≠ .atGet →
      Label.resumeQueue ∉ tr → Label.shutdown ∉ tr →
      (∀ u, Label.startJob u ∉ tr) ∧
      s1.encode_queue_active = false ∧ s1.phase ≠ .atGet := by
  intro tr
  induction tr with
  | nil =>
    intro s0 s1 h hact hph _ _
    cases h
    exact ⟨by simp, hact, hph⟩
  | cons a tr ih =>
    intro s0 s1 h hact hph hres hshut
    have hres2 : Label.resumeQueue ∉ tr := fun hm => hres (List.mem_cons_of_mem _ hm)
    have hshut2 : Label.shutdown ∉ tr := fun hm => hshut (List.mem_cons_of_mem _ hm)
    cases h with
    | cons hstep hrest =>
      have main : (a = Label.resumeQueue → False) → (a = Label.shutdown → False) →
          (∀ u, a ≠ Label.startJob u) →
          (∀ u, Label.startJob u ∉ tr) → s1.encode_queue_active = false → s1.phase ≠ .atGet →
          (∀ u, Label.startJob u ∉ a :: tr) ∧
          s1.encode_queue_active = false ∧ s1.phase ≠ .atGet := by
        intro _ _ hne htr hact1 hph1
        refine ⟨?_, hact1, hph1⟩
        intro u hm
        rcases List.mem_cons.mp hm with heq | hm2
        · exact hne u heq.symm
        · exact htr u hm2
      cases hstep with
      | startEncode _ u t h =>
        have res := ih _ _ hrest hact hph hres2 hshut2
        exact main (by intro hc; cases hc) (by intro hc; cases hc)
          (by intro u hc; cases hc) res.1 res.2.1 res.2.2
      | pauseQueue _ h =>
        have res := ih _ _ hrest (by exact rfl) hph hres2 hshut2
        exact main (by intro hc; cases hc) (by intro hc; cases hc)
          (by intro u hc; cases hc) res.1 res.2.1 res.2.2
      | resumeQueue _ h =>
        exact absurd (List.mem_cons_self _ _) hres
      | stopEncode _ =>
        have res := ih _ _ hrest (by exact rfl) hph hres2 hshut2
        exact main (by intro hc; cases hc) (by intro hc; cases hc)
          (by intro u hc; cases hc) res.1 res.2.1 res.2.2
      | shutdown _ =>
        exact absurd (List.mem_cons_self _ _) hshut
      | checkActive _ h =>
        have hph2 : ({ s0 with phase := if s0.encode_queue_active
            then Phase.atGet else Phase.waitGate } : GuiState).phase ≠ .atGet := by
          show (if s0.encode_queue_active then Phase.atGet else Phase.waitGate) ≠ .atGet
          rw [hact]
          simp
        have res := ih _ _ hrest hact hph2 hres2 hshut2
        exact main (by intro hc; cases hc) (by intro hc; cases hc)
          (by intro u hc; cases hc) res.1 res.2.1 res.2.2
      | wakeActive _ h ha =>
        rw [hact] at ha
        cases ha
      | getSkip _ rest h hq =>
        exact absurd h hph
      | getSentinel _ rest h hq =>
        exact absurd h hph
      | startJob _ u rest h hq =>
        exact absurd h hph
      | finishJob _ u h =>
        have res := ih _ _ hrest hact (by intro hc; cases hc) hres2 hshut2
        exact main (by intro hc; cases hc) (by intro hc; cases hc)
          (by intro u hc; cases hc) res.1 res.2.1 res.2.2
      | killJob _ u h hsr =>
        have res := ih _ _ hrest hact (by intro hc; cases hc) hres2 hshut2
        exact main (by intro hc; cases hc) (by intro hc; cases hc)
          (by intro u hc; cases hc) res.1 res.2.1 res.2.2
      | processEvent _ e rest h =>
        have res := ih _ _ hrest hact hph hres2 hshut2
        exact main (by intro hc; cases hc) (by intro hc; cases hc)
          (by intro u hc; cases hc) res.1 res.2.1 res.2.2

theorem no_kill_without_stop :
    ∀ (tr : List Label) (s0 s1 : GuiState),
      Steps tr s0 s1 →
      s0.stoprequest = false →
      Label.stopEncode ∉ tr → Label.shutdown ∉ tr →
      (∀ u, Label.killJob u ∉ tr) ∧ s1.stoprequest = false := by
  intro tr
  induction tr with
  | nil =>
    intro s0 s1 h hsr _ _
    cases h
    exact ⟨by simp, hsr⟩
  | cons a tr ih =>
    intro s0 s1 h hsr hstop hshut
    have hstop2 : Label.stopEncode ∉ tr := fun hm => hstop (List.mem_cons_of_mem _ hm)
    have hshut2 : Label.shutdown ∉ tr := fun hm => hshut (List.mem_cons_of_mem _ hm)
    cases h with
    | cons hstep hrest =>
      have main : (∀ u, a ≠ Label.killJob u) →
          (∀ u, Label.killJob u ∉ tr) → s1.stoprequest = false →
          (∀ u, Label.killJob u ∉ a :: tr) ∧ s1.stoprequest = false := by
        intro hne htr hs1
        refine ⟨?_, hs1⟩
        intro u hm
        rcases List.mem_cons.mp hm with heq | hm2
        · exact hne u heq.symm
        · exact htr u hm2
      cases hstep with
      | startEncode _ u t h =>
        have res := ih _ _ hrest hsr hstop2 hshut2
        exact main (by intro u hc; cases hc) res.1 res.2
      | pauseQueue _ h =>
        have res := ih _ _ hrest hsr hstop2 hshut2
        exact main (by intro u hc; cases hc) res.1 res.2
      | resumeQueue _ h =>
        have res := ih _ _ hrest hsr hstop2 hshut2
        exact main (by intro u hc; cases hc) res.1 res.2
      | stopEncode _ =>
        exact absurd (List.mem_cons_self _ _) hstop
      | shutdown _ =>
        exact absurd (List.mem_cons_self _ _) hshut
      | checkActive _ h =>
        have res := ih _ _ hrest hsr hstop2 hshut2
        exact main (by intro u hc; cases hc) res.1 res.2
      | wakeActive _ h ha =>
        have res := ih _ _ hrest hsr hstop2 hshut2
        exact main (by intro u hc; cases hc) res.1 res.2
      | getSkip _ rest h hq =>
        have res := ih _ _ hrest hsr hstop2 hshut2
        exact main (by intro u hc; cases hc) res.1 res.2
      | getSentinel _ rest h hq =>
        have res := ih _ _ hrest hsr hstop2 hshut2
        exact main (by intro u hc; cases hc) res.1 res.2
      | startJob _ u rest h hq =>
        have res := ih _ _ hrest hsr hstop2 hshut2
        exact main (by intro u hc; cases hc) res.1 res.2
      | finishJob _ u h =>
        have res := ih _ _ hrest (by exact rfl) hstop2 hshut2
        exact main (by intro u hc; cases hc) res.1 res.2
      | killJob _ u h hs2 =>
        rw [hsr] at hs2
        cases hs2
      | processEvent _ e rest h =>
        have res := ih _ _ hrest hsr hstop2 hshut2
        exact main (by intro u hc; cases hc) res.1 res.2

/-- **C9** (confirmed): pausing the queue while a job is running leaves that
job running (the pause only clears `encode_queue_active` and enqueues the
`_skip` marker); in any continuation that contains no resume (and no
shutdown, which also sets the active flag), no new job is ever dequeued and
started; and if no stop was requested, the running job is never killed — its
only exit is normal completion. -/
theorem pause_never_interrupts :
    ∀ (s s0 : GuiState) (j : String) (tr : List Label) (s1 : GuiState),
      s.phase = .running j →
      Step .pauseQueue s s0 →
      Steps tr s0 s1 →
      Label.resumeQueue ∉ tr → Label.shutdown ∉ tr →
      s0.phase = .running j ∧
      (∀ u, Label.startJob u ∉ tr) ∧
      (s.stoprequest = false → Label.stopEncode ∉ tr → ∀ u, Label.killJob u ∉ tr) := by
  intro s s0 j tr s1 hrunning hpause hsteps hres hshut
  cases hpause with
  | pauseQueue _ h =>
    refine ⟨hrunning, ?_, ?_⟩
    · exact (no_dequeue_while_paused tr _ s1 hsteps rfl
        (by rw [hrunning]; intro hc; cases hc) hres hshut).1
    · intro hsr hstop
      exact (no_kill_without_stop tr _ s1 hsteps hsr hstop hshut).1

/-- Witness for `pause_never_interrupts`: a pause while job `"a"` runs,
followed by the empty continuation. -/
theorem pause_never_interrupts_witness :
    (⟨[⟨"a", "t", "▶ started"⟩], [.skip], [], false, false, .running "a"⟩ : GuiState).phase =
      .running "a" :=
  (pause_never_interrupts ⟨[⟨"a", "t", "▶ started"⟩], [], [], true, false, .running "a"⟩
    _ "a" [] _ rfl (Step.pauseQueue _ rfl) (Steps.nil _) (by simp) (by simp)).1

/-! ## Claims about shutdown (C10) -/

theorem shutdown_safety :
    ∀ (tr : List Label) (s0 s1 : GuiState) (u : String),
      Steps tr s0 s1 → (∀ a ∈ tr, worker_label a) →
      (∀ v, QItem.job v ∉ s0.encode_queue) →
      (∀ j ∈ s0.encode_list, j.uuid = u → j.status = "⏱ waiting") →
      (∀ e ∈ s0.encode_event, e.uuid ≠ u) →
      running_uuid s0.phase ≠ some u →
      (∀ v, Label.startJob v ∉ tr) ∧
      (∀ j ∈ s1.encode_list, j.uuid = u → j.status = "⏱ waiting") ∧
      (∀ e ∈ s1.encode_event, e.uuid ≠ u) := by
  intro tr
  induction tr with
  | nil =>
    intro s0 s1 u h _ _ hw he _
    cases h
    exact ⟨by simp, hw, he⟩
  | cons a tr ih =>
    intro s0 s1 u h hwl hq hw he hr
    have hwl2 : ∀ b ∈ tr, worker_label b := fun b hb => hwl b (List.mem_cons_of_mem _ hb)
    cases h with
    | cons hstep hrest =>
      have main : (∀ v, a ≠ Label.startJob v) →
          ((∀ v, Label.startJob v ∉ tr) ∧
           (∀ j ∈ s1.encode_list, j.uuid = u → j.status = "⏱ waiting") ∧
           (∀ e ∈ s1.encode_event, e.uuid ≠ u)) →
          (∀ v, Label.startJob v ∉ a :: tr) ∧
          (∀ j ∈ s1.encode_list, j.uuid = u → j.status = "⏱ waiting") ∧
          (∀ e ∈ s1.encode_event, e.uuid ≠ u) := by
        intro hne hrec
        refine ⟨?_, hrec.2.1, hrec.2.2⟩
        intro v hm
        rcases List.mem_cons.mp hm with heq | hm2
        · exact hne v heq.symm
        · exact hrec.1 v hm2
      cases hstep with
      | startEncode _ v t h => exact (hwl _ (List.mem_cons_self _ _)).elim
      | pauseQueue _ h => exact (hwl _ (List.mem_cons_self _ _)).elim
      | resumeQueue _ h => exact (hwl _ (List.mem_cons_self _ _)).elim
      | stopEncode _ => exact (hwl _ (List.mem_cons_self _ _)).elim
      | shutdown _ => exact (hwl _ (List.mem_cons_self _ _)).elim
      | processEvent _ e rest h => exact (hwl _ (List.mem_cons_self _ _)).elim
      | checkActive _ h =>
        have hr2 : running_uuid (if s0.encode_queue_active then Phase.atGet
            else Phase.waitGate) ≠ some u := by
          cases s0.encode_queue_active <;> simp [running_uuid]
        have res := ih _ _ u hrest hwl2 hq hw he hr2
        exact main (by intro v hc; cases hc) res
      | wakeActive _ h ha =>
        have res := ih _ _ u hrest hwl2 hq hw he (by intro hc; cases hc)
        exact main (by intro v hc; cases hc) res
      | getSkip _ rest h hqe =>
        have hq2 : ∀ v, QItem.job v ∉ rest :=
          fun v hv => hq v (hqe ▸ List.mem_cons_of_mem _ hv)
        have res := ih _ _ u hrest hwl2 hq2 hw he (by intro hc; cases hc)
        exact main (by intro v hc; cases hc) res
      | getSentinel _ rest h hqe =>
        have hq2 : ∀ v, QItem.job v ∉ rest :=
          fun v hv => hq v (hqe ▸ List.mem_cons_of_mem _ hv)
        have res := ih _ _ u hrest hwl2 hq2 hw he (by intro hc; cases hc)
        exact main (by intro v hc; cases hc) res
      | startJob _ v rest h hqe =>
        exact absurd (hqe ▸ List.mem_cons_self _ _) (hq v)
      | finishJob _ v h =>
        have hvu : v ≠ u := by
          intro hc
          exact hr (by rw [h, hc]; rfl)
        have he2 : ∀ e ∈ s0.encode_event ++ [(⟨v, "✓ finished"⟩ : Event)], e.uuid ≠ u := by
          intro e hme
          rcases List.mem_append.mp hme with h1 | h2
          · exact he e h1
          · rw [List.mem_singleton] at h2
            subst h2
            exact hvu
        have res := ih _ _ u hrest hwl2 hq hw he2 (by intro hc; cases hc)
        exact main (by intro v2 hc; cases hc) res
      | killJob _ v h hsr =>
        have hvu : v ≠ u := by
          intro hc
          exact hr (by rw [h, hc]; rfl)
        have he2 : ∀ e ∈ s0.encode_event ++ [(⟨v, "✓ finished"⟩ : Event)], e.uuid ≠ u := by
          intro e hme
          rcases List.mem_append.mp hme with h1 | h2
          · exact he e h1
          · rw [List.mem_singleton] at h2
            subst h2
            exact hvu
        have res := ih _ _ u hrest hwl2 hq hw he2 (by intro hc; cases hc)
        exact main (by intro v2 hc; cases hc) res

theorem shutdown_halts :
    ∀ (s0 : GuiState),
      s0.encode_queue = [QItem.sentinel] →
      s0.encode_queue_active = true →
      s0.stoprequest = true →
      ∃ (tr : List Label) (s1 : GuiState),
        Steps tr s0 s1 ∧ (∀ a ∈ tr, worker_label a) ∧ s1.phase = .halted := by
  intro s0 hq hact hsr
  cases hph : s0.phase with
  | loopTop =>
    refine ⟨[.checkActive, .getSentinel], _,
      Steps.cons (Step.checkActive s0 hph)
        (Steps.cons (Step.getSentinel _ [] ?_ ?_) (Steps.nil _)), ?_, rfl⟩
    · show (if s0.encode_queue_active then Phase.atGet else Phase.waitGate) = Phase.atGet
      rw [hact]
      rfl
    · show s0.encode_queue = [QItem.sentinel]
      exact hq
    · intro a ha
      fin_cases ha <;> trivial
  | waitGate =>
    refine ⟨[.wakeActive, .getSentinel], _,
      Steps.cons (Step.wakeActive s0 hph hact)
        (Steps.cons (Step.getSentinel _ [] rfl ?_) (Steps.nil _)), ?_, rfl⟩
    · show s0.encode_queue = [QItem.sentinel]
      exact hq
    · intro a ha
      fin_cases ha <;> trivial
  | atGet =>
    refine ⟨[.getSentinel], _,
      Steps.cons (Step.getSentinel s0 [] hph hq) (Steps.nil _), ?_, rfl⟩
    intro a ha
    fin_cases ha
    trivial
  | running v =>
    refine ⟨[.killJob v, .checkActive, .getSentinel], _,
      Steps.cons (Step.killJob s0 v hph hsr)
        (Steps.cons (Step.checkActive _ rfl)
          (Steps.cons (Step.getSentinel _ [] ?_ ?_) (Steps.nil _))), ?_, rfl⟩
    · show (if s0.encode_queue_active then Phase.atGet else Phase.waitGate) = Phase.atGet
      rw [hact]
      rfl
    · show s0.encode_queue = [QItem.sentinel]
      exact hq
    · intro a ha
      fin_cases ha <;> trivial
  | halted =>
    exact ⟨[], s0, Steps.nil s0, by simp, hph⟩

/-- **C10** (confirmed): the shutdown sequence (lines 769-774) leaves
`encode_queue` holding only the sentinel; from there, any continuation of
worker steps never dequeues and starts a job, a pending `"⏱ waiting"` job to
which no event refers keeps its waiting status and is never mentioned by any
event (un-executed, unreported); and the worker has a continuation of its own
steps that reaches the `halted` phase — the loop exits cleanly via the
sentinel case rather than raising. -/
theorem shutdown_abandons_pending :
    ∀ (s s0 : GuiState) (u : String),
      Step .shutdown s s0 →
      (∀ j ∈ s.encode_list, j.uuid = u → j.status = "⏱ waiting") →
      (∀ e ∈ s.encode_event, e.uuid ≠ u) →
      running_uuid s.phase ≠ some u →
      s0.encode_queue = [QItem.sentinel] ∧
      (∀ (tr : List Label) (s1 : GuiState), Steps tr s0 s1 → (∀ a ∈ tr, worker_label a) →
        (∀ v, Label.startJob v ∉ tr) ∧
        (∀ j ∈ s1.encode_list, j.uuid = u → j.status = "⏱ waiting") ∧
        (∀ e ∈ s1.encode_event, e.uuid ≠ u)) ∧
      (∃ (tr : List Label) (s1 : GuiState),
        Steps tr s0 s1 ∧ (∀ a ∈ tr, worker_label a) ∧ s1.phase = .halted) := by
  intro s s0 u hstep hw he hr
  cases hstep with
  | shutdown _ =>
    refine ⟨rfl, ?_, ?_⟩
    · intro tr s1 hsteps hwl
      refine shutdown_safety tr _ s1 u hsteps hwl ?_ hw he hr
      intro v hv
      simp at hv
    · exact shutdown_halts _ rfl rfl rfl

/-- Witness for `shutdown_abandons_pending`: shutdown issued while job `"a"`
is still waiting in the queue. -/
theorem shutdown_abandons_pending_witness :
    (⟨[⟨"a", "t", "⏱ waiting"⟩], [QItem.sentinel], [], true, true, .loopTop⟩ :
      GuiState).encode_queue = [QItem.sentinel] :=
  (shutdown_abandons_pending
    ⟨[⟨"a", "t", "⏱ waiting"⟩], [QItem.job "a"], [], true, false, .loopTop⟩
    _ "a" (Step.shutdown _) (by decide) (by decide) (by decide)).1

/-! ## Claim about stop requests and terminal status (C1) -/

/-- **C1** (code_bug): a concrete run in which `stoprequest` is set while job
`"a"` is running, the worker kills the process (`killJob`), and yet the event
it then puts is `{"uuid": "a", "event": "✓ finished"}` (line 208 runs
unconditionally), so after the GUI processes the events the job's terminal
displayed status is `"✓ finished"` — the code has no cancelled status at all
(its own TODO at line 41 says cancelled jobs should be marked, which never
happens). -/
theorem stop_mid_job_reports_finished :
    Steps [.startEncode "a" "t", .checkActive, .startJob "a", .stopEncode, .killJob "a",
           .processEvent, .processEvent] gui_init
      ⟨[⟨"a", "t", "✓ finished"⟩], [], [], false, false, .loopTop⟩ ∧
    (⟨[⟨"a", "t", "✓ finished"⟩], [], [], false, false, .loopTop⟩ :
      GuiState).encode_list.map Job.status = ["✓ finished"] := by
  constructor
  · exact Steps.cons (Step.startEncode gui_init "a" "t" (by decide))
      (Steps.cons (Step.checkActive _ rfl)
        (Steps.cons (Step.startJob _ "a" [] rfl rfl)
          (Steps.cons (Step.stopEncode _)
            (Steps.cons (Step.killJob _ "a" rfl rfl)
              (Steps.cons (Step.processEvent _ ⟨"a", "▶ started"⟩ [⟨"a", "✓ finished"⟩] rfl)
                (Steps.cons (Step.processEvent _ ⟨"a", "✓ finished"⟩ [] rfl)
                  (Steps.nil _)))))))
  · rfl

end SimpleGui
